import Mathlib

/-!
Shallow embedding of the live variant caller
(`src/variant_caller/live_variant_caller.py`) together with the PhredMath
helpers the spec describes for `variant_caller/utils.py` (that file is not
among the sources, so those functions are modelled from the spec).

Python `dict`s preserve insertion order, so they are embedded as
insertion-ordered association lists; Python `float` arithmetic in the
filter/score pipeline is embedded over `ℚ`, and the genuinely transcendental
phred math over `ℝ`.
-/

namespace VariantCaller

/-- Lookup in an insertion-ordered association list (Python `d[k]` /
`k in d.keys()`). -/
def dictGet? {α β : Type} [DecidableEq α] : List (α × β) → α → Option β
  | [], _ => none
  | (k, v) :: rest, a => if k = a then some v else dictGet? rest a

/-- Assignment `d[k] = v` on an insertion-ordered association list: replaces
the value in place when the key exists, otherwise appends the new key at the
end (Python dict semantics). -/
def dictSet {α β : Type} [DecidableEq α] : List (α × β) → α → β → List (α × β)
  | [], a, b => [(a, b)]
  | (k, v) :: rest, a, b =>
      if k = a then (a, b) :: rest else (k, v) :: dictSet rest a b

/-- A per-position record of the accumulator, embedding the dict literal
built in `process_pileup_column` (keys `reference`, `totalDepth`,
`baseQualities`). -/
structure Site where
  reference : Char
  totalDepth : Nat
  baseQualities : List (Char × List Nat)
  deriving DecidableEq

/-- `self.memory`: map from zero-based reference position to `Site`. -/
abbrev Memory := List (Nat × Site)

/-- One entry of `pileupColumn.pileups`: the per-read data the ingestion code
reads from pysam (`is_del`, `is_refskip`, the base
`alignment.query_sequence[query_position]` and the quality
`alignment.query_qualities[query_position]`). -/
structure Pileup where
  is_del : Bool
  is_refskip : Bool
  base : Char
  quality : Nat
  deriving DecidableEq

/-- One pileup column yielded by the alignment source. -/
structure PileupColumn where
  reference_name : String
  reference_pos : Nat
  pileups : List Pileup
  deriving DecidableEq

/-- Embeds `LiveVariantCaller.process_pileup_at_position`.  Accessing
`self.memory[position]` on an unknown position raises a Python `KeyError`,
embedded as `.error`.  Note the source appends the quality only in the
`else` branch: on the first occurrence of a base it creates an empty list
and does not store the quality. -/
def process_pileup_at_position (mem : Memory) (position : Nat) (pileup : Pileup) :
    Except String Memory :=
  if !pileup.is_del && !pileup.is_refskip then
    match dictGet? mem position with
    | none => .error "KeyError"
    | some site =>
      match dictGet? site.baseQualities pileup.base with
      | none =>
          .ok (dictSet mem position
            { site with baseQualities := dictSet site.baseQualities pileup.base [] })
      | some qs =>
          .ok (dictSet mem position
            { site with
                baseQualities :=
                  dictSet site.baseQualities pileup.base (qs ++ [pileup.quality]) })
  else
    .ok mem

/-- The first half of `LiveVariantCaller.process_pileup_column` (the spec's
`observe`): `totalDepth = len(pileupColumn.pileups)`; a fresh Site is
created at an unseen coordinate, otherwise the existing Site's `totalDepth`
is incremented.  `fasta name pos` stands for
`self.fastaFile.fetch(reference=name)[pos]`. -/
def observe_column (fasta : String → Nat → Char) (mem : Memory)
    (col : PileupColumn) : Memory :=
  match dictGet? mem col.reference_pos with
  | none =>
      dictSet mem col.reference_pos
        { reference := fasta col.reference_name col.reference_pos
          totalDepth := col.pileups.length
          baseQualities := [] }
  | some site =>
      dictSet mem col.reference_pos
        { site with totalDepth := site.totalDepth + col.pileups.length }

/-- Embeds `LiveVariantCaller.process_pileup_column`: the `observe` step
followed by the per-read loop over `pileupColumn.pileups`. -/
def process_pileup_column (fasta : String → Nat → Char) (mem : Memory)
    (col : PileupColumn) : Except String Memory :=
  col.pileups.foldlM (fun m p => process_pileup_at_position m col.reference_pos p)
    (observe_column fasta mem col)

/-- Embeds the column loop of `LiveVariantCaller.process_bam` (progress-bar
and file handling are external I/O concerns). -/
def process_bam (fasta : String → Nat → Char) (mem : Memory)
    (cols : List PileupColumn) : Except String Memory :=
  cols.foldlM (process_pileup_column fasta) mem

/-- Embeds `LiveVariantCaller.create_checkpoint`: `pickle.dump(self.memory,
file)` serialises the memory map; the checkpoint blob is that value. -/
def create_checkpoint (mem : Memory) : Memory :=
  mem

/-- Embeds `LiveVariantCaller.load_checkpoint`.  The source reads
`self.memory, = pickle.load(file)` — an iterable-unpacking assignment with a
single target.  Unpacking the pickled dict iterates its keys: it succeeds
only when the dict has exactly one key and then binds `self.memory` to that
key (an integer position, not the map); with zero or more than one key it
raises `ValueError`. -/
def load_checkpoint (blob : Memory) : Except String Nat :=
  match blob with
  | [entry] => .ok entry.1
  | [] => .error "ValueError: not enough values to unpack (expected 1, got 0)"
  | _ => .error "ValueError: too many values to unpack (expected 1)"

/-- The scoring configuration held by `LiveVariantCaller.__init__`
(the fields `write_vcf` reads; base/mapping quality are consumed by the
external pileup engine). -/
structure Config where
  minTotalDepth : Nat
  minEvidenceDepth : Nat
  minEvidenceRatio : ℚ
  maxVariants : Nat
  deriving DecidableEq

/-- The numeric helpers `write_vcf` imports from `variant_caller/utils.py`
(a file not among the sources) plus `math.log10`, taken as parameters of the
emission pass: `from_phred_scale` and `to_phred_scale` per spec §4.1,
`genotype_likelihood(allele, errorProbabilities)` per spec §4.2.  The
filter/ordering/truncation claims hold for every choice of these functions. -/
structure ScoringOps where
  from_phred_scale : Nat → ℚ
  genotype_likelihood : Char → List (Char × List ℚ) → ℚ
  log10 : ℚ → ℚ
  to_phred_scale : ℚ → ℚ

/-- One record handed to `vcfFile.write` (`start`, `stop`, `alleles`, `qual`
and the INFO fields TD/ED/GL/PL/SCORE). -/
structure VariantRecord where
  start : Nat
  stop : Nat
  alleles : Char × Char
  qual : ℚ
  td : Nat
  ed : Nat
  gl : ℚ
  pl : ℤ
  score : ℚ
  deriving DecidableEq

/-- `np.mean` over the embedded rationals. -/
def mean (l : List ℚ) : ℚ :=
  l.foldl (· + ·) 0 / l.length

/-- The `errorProbabilities` dict comprehension of `write_vcf`: every stored
quality converted through `from_phred_scale`, per allele. -/
def errorProbabilities (ops : ScoringOps) (site : Site) : List (Char × List ℚ) :=
  site.baseQualities.map fun aq => (aq.1, aq.2.map ops.from_phred_scale)

/-- The `genotypeLikelihoods` dict comprehension of `write_vcf`. -/
def genotypeLikelihoods (ops : ScoringOps) (site : Site) : List (Char × ℚ) :=
  (errorProbabilities ops site).map fun ae =>
    (ae.1, ops.genotype_likelihood ae.1 (errorProbabilities ops site))

/-- `sumGenotypeLikelihoods`: `functools.reduce(operator.add, values, 0.0)`,
substituted with 1.0 when the sum is zero. -/
def sumGenotypeLikelihoods (ops : ScoringOps) (site : Site) : ℚ :=
  if ((genotypeLikelihoods ops site).map Prod.snd).foldl (· + ·) 0 ≠ 0 then
    ((genotypeLikelihoods ops site).map Prod.snd).foldl (· + ·) 0
  else
    1

/-- The `filterConstrains` list of `write_vcf` combined with `all(...)`:
reference differs from the allele, evidence depth at least
`minEvidenceDepth`, and evidence ratio at least `minEvidenceRatio`. -/
def filterConstrains (cfg : Config) (site : Site) (allele : Char)
    (evidenceDepth : Nat) : Bool :=
  [ decide (site.reference ≠ allele)
  , decide (cfg.minEvidenceDepth ≤ evidenceDepth)
  , decide (cfg.minEvidenceRatio ≤ (evidenceDepth : ℚ) / (site.totalDepth : ℚ)) ].all id

/-- The dict appended to `variants` for one passing allele `ae` of
`errorProbabilities`: GL is `log10` of the allele's genotype likelihood and
PL its rounded phred scaling, both 0 in the degenerate zero-likelihood case;
SCORE is `to_phred_scale(1 - likelihood / sumGenotypeLikelihoods)`; `qual`
is the mean error probability. -/
def candidate_record (ops : ScoringOps) (position : Nat) (site : Site)
    (ae : Char × List ℚ) : VariantRecord :=
  { start := position
    stop := position + 1
    alleles := (site.reference, ae.1)
    qual := mean ae.2
    td := site.totalDepth
    ed := ae.2.length
    gl := if (dictGet? (genotypeLikelihoods ops site) ae.1).getD 0 ≠ 0 then
        ops.log10 ((dictGet? (genotypeLikelihoods ops site) ae.1).getD 0)
      else 0
    pl := if (dictGet? (genotypeLikelihoods ops site) ae.1).getD 0 ≠ 0 then
        round (-10 * ops.log10 ((dictGet? (genotypeLikelihoods ops site) ae.1).getD 0))
      else 0
    score := ops.to_phred_scale
      (1 - (dictGet? (genotypeLikelihoods ops site) ae.1).getD 0 / sumGenotypeLikelihoods ops site) }

/-- The `variants` list built by the allele loop of `write_vcf` for one
Site. -/
def site_variants (ops : ScoringOps) (cfg : Config) (position : Nat)
    (site : Site) : List VariantRecord :=
  (errorProbabilities ops site).filterMap fun ae =>
    if filterConstrains cfg site ae.1 ae.2.length then
      some (candidate_record ops position site ae)
    else
      none

/-- The sort key of the emission loop: `variant['info']['SCORE']`. -/
def scoreLE (a b : VariantRecord) : Bool :=
  a.score ≤ b.score

/-- The emission loop for one Site: `sorted(variants, key=SCORE)` followed by
`if self.maxVariants == 0 or index < self.maxVariants`, i.e. the whole
sorted list when `maxVariants` is 0 and its first `maxVariants` entries
otherwise. -/
def site_emitted (ops : ScoringOps) (cfg : Config) (position : Nat)
    (site : Site) : List VariantRecord :=
  let sortedVariants := (site_variants ops cfg position site).mergeSort scoreLE
  if cfg.maxVariants = 0 then sortedVariants else sortedVariants.take cfg.maxVariants

/-- The position loop of `write_vcf`, threading the memory it reads so that
any mutation would be visible in the returned state. -/
def write_vcf_loop (ops : ScoringOps) (cfg : Config) :
    List Nat → Memory → List VariantRecord × Memory
  | [], mem => ([], mem)
  | position :: rest, mem =>
    let step : List VariantRecord :=
      match dictGet? mem position with
      | some site =>
          if cfg.minTotalDepth ≤ site.totalDepth then
            site_emitted ops cfg position site
          else
            []
      | none => []
    let next := write_vcf_loop ops cfg rest mem
    (step ++ next.1, next.2)

/-- Embeds `LiveVariantCaller.write_vcf`: iterates the memory's positions in
insertion order, emitting the filtered, score-sorted, truncated records of
every Site passing the total-depth filter; returns the records together with
the final memory state.  Header construction and file I/O are external
sink concerns. -/
def write_vcf (ops : ScoringOps) (cfg : Config) (mem : Memory) :
    List VariantRecord × Memory :=
  write_vcf_loop ops cfg (mem.map Prod.fst) mem

/-- The alleles of a Site that pass `filterConstrains` (with the reference
and depths of that Site), in observation-map order. -/
def passing_alleles (cfg : Config) (site : Site) : List Char :=
  (site.baseQualities.filter fun aq => filterConstrains cfg site aq.1 aq.2.length).map
    Prod.fst

/-- The §8 scenario column: position 100, five reads, qualities 30/30/20 for
base G and 30/30 for base A, none a deletion or reference skip. -/
def scenarioColumn : PileupColumn :=
  { reference_name := "ref"
    reference_pos := 100
    pileups :=
      [ { is_del := false, is_refskip := false, base := 'G', quality := 30 }
      , { is_del := false, is_refskip := false, base := 'G', quality := 30 }
      , { is_del := false, is_refskip := false, base := 'G', quality := 20 }
      , { is_del := false, is_refskip := false, base := 'A', quality := 30 }
      , { is_del := false, is_refskip := false, base := 'A', quality := 30 } ] }

/-- C1: the claim says every non-deletion, non-skip read's quality is appended
to `observations[base]`, so in the §8 scenario allele G ends with the three
qualities [30, 30, 20] and evidence depth 3.  Evaluating the ingestion code on
that exact scenario shows the first quality of each base is dropped (the
branch that creates the key stores an empty list instead of the quality):
G ends with [30, 20] (evidence depth 2) and A with [30] (evidence depth 1). -/
theorem ingest_scenario_drops_first_quality :
    process_pileup_column (fun _ _ => 'A') [] scenarioColumn =
      .ok [(100, { reference := 'A', totalDepth := 5,
                   baseQualities := [('G', [30, 20]), ('A', [30])] })] :=
  rfl

/-- C2: the claimed invariant is that an allele with an empty observation
list never appears as a key of `baseQualities`.  Ingesting a single column
with one read of base G produces the reachable state where key G is present
and maps to the empty list, violating the invariant. -/
theorem ingest_creates_empty_observation_key :
    process_pileup_column (fun _ _ => 'A') []
        { reference_name := "ref", reference_pos := 0,
          pileups := [{ is_del := false, is_refskip := false, base := 'G', quality := 30 }] } =
      .ok [(0, { reference := 'A', totalDepth := 1, baseQualities := [('G', [])] })] :=
  rfl

/-- A concrete accumulator state holding 3 Sites, as in the §8 checkpoint
scenario. -/
def threeSiteMemory : Memory :=
  [ (0, { reference := 'A', totalDepth := 4, baseQualities := [('G', [30])] })
  , (1, { reference := 'C', totalDepth := 2, baseQualities := [] })
  , (2, { reference := 'G', totalDepth := 7, baseQualities := [('T', [20, 25])] }) ]

/-- C3: the claim says a checkpoint save followed by a load restores the
3-Site map exactly.  Evaluating the code: `load_checkpoint` executes
`self.memory, = pickle.load(file)`, a single-target unpacking of the pickled
dict, which raises `ValueError` for a dict with 3 keys; the map is never
restored. -/
theorem checkpoint_roundtrip_fails_on_three_sites :
    load_checkpoint (create_checkpoint threeSiteMemory) =
      .error "ValueError: too many values to unpack (expected 1)" :=
  rfl

/-- C8: ingesting a read (not a deletion or reference skip) at a position for
which no Site exists fails with a `KeyError` (the spec's `InvalidState`) when
`self.memory[position]` is accessed; the observation is never silently
dropped. -/
theorem recordBase_unknown_position_fails (mem : Memory) (position : Nat)
    (pileup : Pileup) (hnone : dictGet? mem position = none)
    (hdel : pileup.is_del = false) (hskip : pileup.is_refskip = false) :
    process_pileup_at_position mem position pileup = .error "KeyError" := by
  simp [process_pileup_at_position, hdel, hskip, hnone]

/-- Witness for C8 at the concrete input: empty memory, position 7, a read
of base G with quality 30. -/
theorem recordBase_unknown_position_fails_witness :
    dictGet? ([] : Memory) 7 = none ∧
      (Pileup.mk false false 'G' 30).is_del = false ∧
      (Pileup.mk false false 'G' 30).is_refskip = false ∧
      process_pileup_at_position [] 7 (Pileup.mk false false 'G' 30) =
        .error "KeyError" :=
  ⟨rfl, rfl, rfl, recordBase_unknown_position_fails [] 7 _ rfl rfl rfl⟩

theorem mem_site_variants {ops : ScoringOps} {cfg : Config} {position : Nat}
    {site : Site} {r : VariantRecord} :
    r ∈ site_variants ops cfg position site ↔
      ∃ ae ∈ errorProbabilities ops site,
        filterConstrains cfg site ae.1 ae.2.length = true ∧
          r = candidate_record ops position site ae := by
  simp only [site_variants, List.mem_filterMap]
  constructor
  · rintro ⟨ae, hae, hr⟩
    by_cases h : filterConstrains cfg site ae.1 ae.2.length
    · rw [if_pos h] at hr
      exact ⟨ae, hae, h, (Option.some_inj.mp hr).symm⟩
    · rw [if_neg h] at hr
      exact absurd hr (by simp)
  · rintro ⟨ae, hae, h, rfl⟩
    exact ⟨ae, hae, by rw [if_pos h]⟩

theorem mem_site_emitted {ops : ScoringOps} {cfg : Config} {position : Nat}
    {site : Site} {r : VariantRecord} (h : r ∈ site_emitted ops cfg position site) :
    r ∈ site_variants ops cfg position site := by
  unfold site_emitted at h
  by_cases hmv : cfg.maxVariants = 0
  · rw [if_pos hmv] at h
    exact ((List.mergeSort_perm _ scoreLE).mem_iff).mp h
  · rw [if_neg hmv] at h
    exact ((List.mergeSort_perm _ scoreLE).mem_iff).mp (List.mem_of_mem_take h)

theorem mem_write_vcf_loop {ops : ScoringOps} {cfg : Config} {l : List Nat}
    {mem : Memory} {r : VariantRecord} (h : r ∈ (write_vcf_loop ops cfg l mem).1) :
    ∃ position ∈ l, ∃ site, dictGet? mem position = some site ∧
      cfg.minTotalDepth ≤ site.totalDepth ∧ r ∈ site_emitted ops cfg position site := by
  induction l with
  | nil => simp [write_vcf_loop] at h
  | cons p rest ih =>
    simp only [write_vcf_loop] at h
    rcases List.mem_append.mp h with h1 | h2
    · cases hd : dictGet? mem p with
      | none =>
        rw [hd] at h1
        have h1' : r ∈ ([] : List VariantRecord) := h1
        exact absurd h1' (by simp)
      | some site =>
        rw [hd] at h1
        have h1' : r ∈ (if cfg.minTotalDepth ≤ site.totalDepth then
            site_emitted ops cfg p site else []) := h1
        by_cases htd : cfg.minTotalDepth ≤ site.totalDepth
        · rw [if_pos htd] at h1'
          exact ⟨p, by simp, site, hd, htd, h1'⟩
        · rw [if_neg htd] at h1'
          exact absurd h1' (by simp)
    · obtain ⟨q, hq, site, hd, htd, hr⟩ := ih h2
      exact ⟨q, by simp [hq], site, hd, htd, hr⟩

/-- C4: every variant record produced by the emission pass comes from a Site
passing the total-depth filter, its alternate allele differs from that
Site's reference base, its evidence depth passes `minEvidenceDepth`, its
evidence ratio passes `minEvidenceRatio`, and its TD field is the Site's
total depth — for every choice of the numeric helper functions. -/
theorem emitted_records_satisfy_filters (ops : ScoringOps) (cfg : Config)
    (mem : Memory) (r : VariantRecord) (h : r ∈ (write_vcf ops cfg mem).1) :
    ∃ site, dictGet? mem r.start = some site ∧
      cfg.minTotalDepth ≤ site.totalDepth ∧
      site.reference ≠ r.alleles.2 ∧
      cfg.minEvidenceDepth ≤ r.ed ∧
      cfg.minEvidenceRatio ≤ (r.ed : ℚ) / (site.totalDepth : ℚ) ∧
      r.td = site.totalDepth := by
  obtain ⟨position, _, site, hd, htd, hr⟩ := mem_write_vcf_loop h
  obtain ⟨ae, _, hc, rfl⟩ := mem_site_variants.mp (mem_site_emitted hr)
  simp only [filterConstrains, List.all_cons, List.all_nil, id, Bool.and_true,
    Bool.and_eq_true, decide_eq_true_eq] at hc
  obtain ⟨hne, hed, hratio⟩ := hc
  exact ⟨site, hd, htd, hne, hed, hratio, rfl⟩

def opsC4 : ScoringOps :=
  { from_phred_scale := fun _ => 0
    genotype_likelihood := fun _ _ => 0
    log10 := fun _ => 0
    to_phred_scale := fun x => x }

def cfgC4 : Config :=
  { minTotalDepth := 1, minEvidenceDepth := 1, minEvidenceRatio := 1 / 2, maxVariants := 0 }

def memC4 : Memory :=
  [(7, { reference := 'A', totalDepth := 2, baseQualities := [('G', [30, 25])] })]

def recC4 : VariantRecord :=
  candidate_record opsC4 7 { reference := 'A', totalDepth := 2, baseQualities := [('G', [30, 25])] }
    ('G', [0, 0])

/-- Witness for C4 at a concrete accumulator with one Site whose allele G
passes every filter, so one record is emitted. -/
theorem emitted_records_satisfy_filters_witness :
    recC4 ∈ (write_vcf opsC4 cfgC4 memC4).1 ∧
      ∃ site, dictGet? memC4 recC4.start = some site ∧
        cfgC4.minTotalDepth ≤ site.totalDepth ∧
        site.reference ≠ recC4.alleles.2 ∧
        cfgC4.minEvidenceDepth ≤ recC4.ed ∧
        cfgC4.minEvidenceRatio ≤ (recC4.ed : ℚ) / (site.totalDepth : ℚ) ∧
        recC4.td = site.totalDepth := by
  have hf : filterConstrains cfgC4
      { reference := 'A', totalDepth := 2, baseQualities := [('G', [30, 25])] } 'G' 2 = true := by
    simp only [filterConstrains, cfgC4, List.all_cons, List.all_nil, id,
      Bool.and_true, Bool.and_eq_true, decide_eq_true_eq]
    refine ⟨by decide, by decide, by norm_num⟩
  have hv : site_variants opsC4 cfgC4 7
      { reference := 'A', totalDepth := 2, baseQualities := [('G', [30, 25])] } = [recC4] := by
    simp only [site_variants]
    rw [show errorProbabilities opsC4
        { reference := 'A', totalDepth := 2, baseQualities := [('G', [30, 25])] } =
      [('G', [0, 0])] from rfl]
    simp [List.filterMap_cons, hf, recC4]
  have hm : recC4 ∈ (write_vcf opsC4 cfgC4 memC4).1 := by
    show recC4 ∈ (site_variants opsC4 cfgC4 7
      { reference := 'A', totalDepth := 2, baseQualities := [('G', [30, 25])] }).mergeSort scoreLE ++ []
    rw [List.mem_append]
    left
    rw [(List.mergeSort_perm _ _).mem_iff, hv]
    simp
  exact ⟨hm, emitted_records_satisfy_filters opsC4 cfgC4 memC4 recC4 hm⟩

theorem sorted_mergeSort_score (l : List VariantRecord) :
    List.Pairwise (fun a b : VariantRecord => a.score ≤ b.score) (l.mergeSort scoreLE) := by
  have hs := @List.sorted_mergeSort VariantRecord scoreLE
    (fun a b c hab hbc => by
      simp only [scoreLE, decide_eq_true_eq] at hab hbc ⊢
      exact le_trans hab hbc)
    (fun a b => by
      simp only [scoreLE, Bool.or_eq_true, decide_eq_true_eq]
      exact le_total a.score b.score)
    l
  exact hs.imp fun h => by simpa [scoreLE, decide_eq_true_eq] using h

/-- C5: for every Site the emitted records are sorted ascending by SCORE;
with `maxVariants = 0` they are exactly the candidate list (up to the sort
permutation), and with `maxVariants > 0` exactly `min maxVariants k`
records are kept, every one of them scoring no higher than every candidate
left out — so no candidate is excluded because of its SCORE value, only by
the count cutoff.  Holds for every choice of the numeric helper
functions. -/
theorem emission_sorted_and_truncated (ops : ScoringOps) (cfg : Config)
    (position : Nat) (site : Site) :
    List.Sorted (fun a b : VariantRecord => a.score ≤ b.score)
        (site_emitted ops cfg position site) ∧
      (cfg.maxVariants = 0 →
        (site_emitted ops cfg position site).Perm (site_variants ops cfg position site)) ∧
      (0 < cfg.maxVariants →
        (site_emitted ops cfg position site).length =
            min cfg.maxVariants (site_variants ops cfg position site).length ∧
          ∃ rest, (site_emitted ops cfg position site ++ rest).Perm
              (site_variants ops cfg position site) ∧
            ∀ a ∈ site_emitted ops cfg position site, ∀ b ∈ rest, a.score ≤ b.score) := by
  have hs := sorted_mergeSort_score (site_variants ops cfg position site)
  have hperm := List.mergeSort_perm (site_variants ops cfg position site) scoreLE
  by_cases hmv : cfg.maxVariants = 0
  · have he : site_emitted ops cfg position site =
        (site_variants ops cfg position site).mergeSort scoreLE := by
      unfold site_emitted
      rw [if_pos hmv]
    rw [he]
    exact ⟨hs, fun _ => hperm, fun h0 => absurd hmv (by omega)⟩
  · have he : site_emitted ops cfg position site =
        ((site_variants ops cfg position site).mergeSort scoreLE).take cfg.maxVariants := by
      unfold site_emitted
      rw [if_neg hmv]
    rw [he]
    refine ⟨List.Pairwise.sublist (List.take_sublist _ _) hs, fun h0 => absurd h0 hmv, fun _ => ?_⟩
    constructor
    · rw [List.length_take, hperm.length_eq]
    · refine ⟨((site_variants ops cfg position site).mergeSort scoreLE).drop cfg.maxVariants,
        ?_, ?_⟩
      · rw [List.take_append_drop]
        exact hperm
      · have hp := hs
        rw [← List.take_append_drop cfg.maxVariants
          ((site_variants ops cfg position site).mergeSort scoreLE)] at hp
        exact (List.pairwise_append.mp hp).2.2

def opsC5 : ScoringOps :=
  { from_phred_scale := fun q => q
    genotype_likelihood := fun _ _ => 0
    log10 := fun _ => 0
    to_phred_scale := fun x => x }

def cfgC5 : Config :=
  { minTotalDepth := 1, minEvidenceDepth := 1, minEvidenceRatio := 0, maxVariants := 1 }

def siteC5 : Site :=
  { reference := 'A', totalDepth := 4, baseQualities := [('G', [10, 20]), ('T', [30, 40])] }

/-- Witness for C5 at a concrete Site producing two candidates with
`maxVariants = 1`, discharging the `0 < maxVariants` hypothesis. -/
theorem emission_sorted_and_truncated_witness :
    List.Sorted (fun a b : VariantRecord => a.score ≤ b.score)
        (site_emitted opsC5 cfgC5 9 siteC5) ∧
      (site_emitted opsC5 cfgC5 9 siteC5).length =
          min cfgC5.maxVariants (site_variants opsC5 cfgC5 9 siteC5).length ∧
        ∃ rest, (site_emitted opsC5 cfgC5 9 siteC5 ++ rest).Perm
            (site_variants opsC5 cfgC5 9 siteC5) ∧
          ∀ a ∈ site_emitted opsC5 cfgC5 9 siteC5, ∀ b ∈ rest, a.score ≤ b.score := by
  have h := emission_sorted_and_truncated opsC5 cfgC5 9 siteC5
  exact ⟨h.1, h.2.2 (by decide)⟩

theorem write_vcf_loop_mem_unchanged (ops : ScoringOps) (cfg : Config)
    (l : List Nat) (mem : Memory) : (write_vcf_loop ops cfg l mem).2 = mem := by
  induction l with
  | nil => rfl
  | cons p rest ih =>
    simp only [write_vcf_loop]
    exact ih

/-- C10: the emission pass never mutates the accumulator: the memory
threaded through the whole position loop comes back unchanged, so every
Site (reference base, total depth, observations) reads the same before and
after, and emission can be repeated with the same result. -/
theorem write_vcf_does_not_mutate_memory (ops : ScoringOps) (cfg : Config)
    (mem : Memory) :
    (write_vcf ops cfg mem).2 = mem ∧
      ∀ position, dictGet? (write_vcf ops cfg mem).2 position = dictGet? mem position := by
  have h : (write_vcf ops cfg mem).2 = mem :=
    write_vcf_loop_mem_unchanged ops cfg (mem.map Prod.fst) mem
  exact ⟨h, fun position => by rw [h]⟩

theorem foldl_add_eq_of_zeros (l : List ℚ) (h : ∀ x ∈ l, x = 0) :
    ∀ c : ℚ, l.foldl (· + ·) c = c := by
  induction l with
  | nil => intro c; rfl
  | cons x xs ih =>
    intro c
    rw [List.foldl_cons, h x (by simp), add_zero]
    exact ih (fun y hy => h y (by simp [hy])) c

theorem dictGet?_values_zero {m : List (Char × ℚ)} (h : ∀ kv ∈ m, kv.2 = 0)
    (a : Char) : (dictGet? m a).getD 0 = 0 := by
  induction m with
  | nil => rfl
  | cons kv rest ih =>
    rw [dictGet?]
    by_cases hk : kv.1 = a
    · rw [if_pos hk]
      exact h kv (by simp)
    · rw [if_neg hk]
      exact ih fun x hx => h x (by simp [hx])

theorem genotypeLikelihoods_values_zero (ops : ScoringOps) (site : Site)
    (hzero : ∀ a e, ops.genotype_likelihood a e = 0) :
    ∀ kv ∈ genotypeLikelihoods ops site, kv.2 = 0 := by
  intro kv hkv
  simp only [genotypeLikelihoods, List.mem_map] at hkv
  obtain ⟨ae, _, rfl⟩ := hkv
  exact hzero _ _

theorem sumGenotypeLikelihoods_degenerate (ops : ScoringOps) (site : Site)
    (hzero : ∀ a e, ops.genotype_likelihood a e = 0) :
    sumGenotypeLikelihoods ops site = 1 := by
  have h0 : ((genotypeLikelihoods ops site).map Prod.snd).foldl (· + ·) 0 = 0 := by
    apply foldl_add_eq_of_zeros
    intro x hx
    obtain ⟨kv, hkv, rfl⟩ := List.mem_map.mp hx
    exact genotypeLikelihoods_values_zero ops site hzero kv hkv
  unfold sumGenotypeLikelihoods
  rw [h0]
  simp

theorem site_variants_alleles (ops : ScoringOps) (cfg : Config) (position : Nat)
    (site : Site) :
    (site_variants ops cfg position site).map (fun r => r.alleles.2) =
      passing_alleles cfg site := by
  unfold site_variants passing_alleles errorProbabilities
  induction site.baseQualities with
  | nil => rfl
  | cons aq rest ih =>
    simp only [List.map_cons, List.filterMap_cons, List.filter_cons, List.length_map]
    by_cases h : filterConstrains cfg site aq.1 aq.2.length
    · rw [if_pos h, if_pos h]
      simp only [List.map_cons, ih]
      rfl
    · rw [if_neg h, if_neg (by simpa using h)]
      exact ih

/-- C7: when every genotype likelihood of a Site is zero, the emission code
substitutes 1.0 for the zero likelihood sum, sets GL and PL to 0 for every
passing allele, and still scores each one as
`to_phred_scale(1 - 0/1) = to_phred_scale 1`; the passing alleles are
emitted as candidates exactly as for any other likelihood values (the
candidate alleles are precisely the alleles passing `filterConstrains`),
and the whole computation is total — no error is raised. -/
theorem degenerate_likelihoods_fallback (ops : ScoringOps) (cfg : Config)
    (position : Nat) (site : Site)
    (hzero : ∀ a e, ops.genotype_likelihood a e = 0) :
    (∀ r ∈ site_variants ops cfg position site,
        r.gl = 0 ∧ r.pl = 0 ∧ r.score = ops.to_phred_scale 1) ∧
      (site_variants ops cfg position site).map (fun r => r.alleles.2) =
        passing_alleles cfg site := by
  refine ⟨?_, site_variants_alleles ops cfg position site⟩
  intro r hr
  obtain ⟨ae, _, _, rfl⟩ := mem_site_variants.mp hr
  have hl : (dictGet? (genotypeLikelihoods ops site) ae.1).getD 0 = 0 :=
    dictGet?_values_zero (genotypeLikelihoods_values_zero ops site hzero) ae.1
  have hsum := sumGenotypeLikelihoods_degenerate ops site hzero
  refine ⟨?_, ?_, ?_⟩ <;> simp [candidate_record, hl, hsum]

def opsC7 : ScoringOps :=
  { from_phred_scale := fun q => q
    genotype_likelihood := fun _ _ => 0
    log10 := fun x => x
    to_phred_scale := fun x => x }

def cfgC7 : Config :=
  { minTotalDepth := 1, minEvidenceDepth := 1, minEvidenceRatio := 0, maxVariants := 0 }

def siteC7 : Site :=
  { reference := 'A', totalDepth := 2, baseQualities := [('G', [30, 25])] }

/-- Witness for C7 at a concrete Site and an all-zero genotype-likelihood
function, discharging the degeneracy hypothesis. -/
theorem degenerate_likelihoods_fallback_witness :
    (∀ a e, opsC7.genotype_likelihood a e = 0) ∧
      (∀ r ∈ site_variants opsC7 cfgC7 3 siteC7,
          r.gl = 0 ∧ r.pl = 0 ∧ r.score = opsC7.to_phred_scale 1) ∧
        (site_variants opsC7 cfgC7 3 siteC7).map (fun r => r.alleles.2) =
          passing_alleles cfgC7 siteC7 :=
  ⟨fun _ _ => rfl, degenerate_likelihoods_fallback opsC7 cfgC7 3 siteC7 fun _ _ => rfl⟩

/-- The total depth the accumulator records at position `p` (0 when no Site
exists there). -/
def depthAt (mem : Memory) (p : Nat) : Nat :=
  ((dictGet? mem p).map Site.totalDepth).getD 0

theorem dictGet?_dictSet_self {α β : Type} [DecidableEq α] (m : List (α × β))
    (a : α) (b : β) : dictGet? (dictSet m a b) a = some b := by
  induction m with
  | nil => simp [dictSet, dictGet?]
  | cons kv rest ih =>
    rw [dictSet]
    by_cases hk : kv.1 = a
    · rw [if_pos hk, dictGet?, if_pos rfl]
    · rw [if_neg hk, dictGet?, if_neg hk]
      exact ih

theorem dictGet?_dictSet_ne {α β : Type} [DecidableEq α] (m : List (α × β))
    (a a' : α) (b : β) (h : a ≠ a') :
    dictGet? (dictSet m a b) a' = dictGet? m a' := by
  induction m with
  | nil => simp [dictSet, dictGet?, h]
  | cons kv rest ih =>
    rw [dictSet]
    by_cases hk : kv.1 = a
    · rw [if_pos hk, dictGet?, dictGet?, if_neg h, if_neg (hk ▸ h)]
    · rw [if_neg hk, dictGet?, dictGet?]
      by_cases hk' : kv.1 = a'
      · rw [if_pos hk', if_pos hk']
      · rw [if_neg hk', if_neg hk']
        exact ih

theorem depthAt_dictSet_same_depth (mem : Memory) (q : Nat) (site site' : Site)
    (h : dictGet? mem q = some site) (hd : site'.totalDepth = site.totalDepth) :
    ∀ r, depthAt (dictSet mem q site') r = depthAt mem r := by
  intro r
  by_cases hr : q = r
  · subst hr
    simp [depthAt, dictGet?_dictSet_self, h, hd]
  · simp [depthAt, dictGet?_dictSet_ne _ _ _ _ hr]

theorem isSome_dictSet (mem : Memory) (q : Nat) (site' : Site)
    (hq : (dictGet? mem q).isSome = true) :
    ∀ r, (dictGet? (dictSet mem q site') r).isSome = (dictGet? mem r).isSome := by
  intro r
  by_cases hr : q = r
  · subst hr
    simp [dictGet?_dictSet_self, hq]
  · rw [dictGet?_dictSet_ne _ _ _ _ hr]

theorem process_pileup_at_position_of_some (mem : Memory) (q : Nat) (pl : Pileup)
    (site : Site) (h : dictGet? mem q = some site)
    (hc : (!pl.is_del && !pl.is_refskip) = true) :
    process_pileup_at_position mem q pl =
      match dictGet? site.baseQualities pl.base with
      | none =>
          .ok (dictSet mem q
            { site with baseQualities := dictSet site.baseQualities pl.base [] })
      | some qs =>
          .ok (dictSet mem q
            { site with
                baseQualities :=
                  dictSet site.baseQualities pl.base (qs ++ [pl.quality]) }) := by
  unfold process_pileup_at_position
  rw [if_pos hc, h]

theorem process_pileup_at_position_ok (mem : Memory) (q : Nat) (pl : Pileup)
    (site : Site) (h : dictGet? mem q = some site) :
    ∃ m', process_pileup_at_position mem q pl = .ok m' ∧
      (∀ r, depthAt m' r = depthAt mem r) ∧
      (∀ r, (dictGet? m' r).isSome = (dictGet? mem r).isSome) := by
  have hq : (dictGet? mem q).isSome = true := by rw [h]; rfl
  by_cases hc : (!pl.is_del && !pl.is_refskip) = true
  · rw [process_pileup_at_position_of_some mem q pl site h hc]
    cases hb : dictGet? site.baseQualities pl.base with
    | none =>
      exact ⟨_, rfl, depthAt_dictSet_same_depth mem q site _ h rfl,
        isSome_dictSet mem q _ hq⟩
    | some qs =>
      exact ⟨_, rfl, depthAt_dictSet_same_depth mem q site _ h rfl,
        isSome_dictSet mem q _ hq⟩
  · refine ⟨mem, ?_, fun _ => rfl, fun _ => rfl⟩
    unfold process_pileup_at_position
    rw [if_neg hc]

theorem foldlM_record_ok (q : Nat) (pls : List Pileup) :
    ∀ mem : Memory, (dictGet? mem q).isSome = true →
      ∃ m', pls.foldlM (fun m p => process_pileup_at_position m q p) mem = .ok m' ∧
        (∀ r, depthAt m' r = depthAt mem r) ∧
        (∀ r, (dictGet? m' r).isSome = (dictGet? mem r).isSome) := by
  induction pls with
  | nil => exact fun mem _ => ⟨mem, rfl, fun _ => rfl, fun _ => rfl⟩
  | cons p ps ih =>
    intro mem hq
    obtain ⟨site, hsite⟩ := Option.isSome_iff_exists.mp hq
    obtain ⟨m1, h1, hd1, hs1⟩ := process_pileup_at_position_ok mem q p site hsite
    obtain ⟨m', h2, hd2, hs2⟩ := ih m1 (by rw [hs1 q]; exact hq)
    refine ⟨m', ?_, fun r => (hd2 r).trans (hd1 r), fun r => (hs2 r).trans (hs1 r)⟩
    rw [List.foldlM_cons, h1]
    exact h2

theorem observe_column_spec (fasta : String → Nat → Char) (mem : Memory)
    (col : PileupColumn) :
    (∀ r, depthAt (observe_column fasta mem col) r =
        depthAt mem r + (if col.reference_pos = r then col.pileups.length else 0)) ∧
      (dictGet? (observe_column fasta mem col) col.reference_pos).isSome = true := by
  unfold observe_column
  cases hq : dictGet? mem col.reference_pos with
  | none =>
    refine ⟨fun r => ?_, by rw [dictGet?_dictSet_self]; rfl⟩
    by_cases hr : col.reference_pos = r
    · subst hr
      simp [depthAt, dictGet?_dictSet_self, hq]
    · simp [depthAt, dictGet?_dictSet_ne _ _ _ _ hr, if_neg hr]
  | some site =>
    refine ⟨fun r => ?_, by rw [dictGet?_dictSet_self]; rfl⟩
    by_cases hr : col.reference_pos = r
    · subst hr
      simp [depthAt, dictGet?_dictSet_self, hq]
    · simp [depthAt, dictGet?_dictSet_ne _ _ _ _ hr, if_neg hr]

theorem process_pileup_column_ok (fasta : String → Nat → Char) (mem : Memory)
    (col : PileupColumn) :
    ∃ m', process_pileup_column fasta mem col = .ok m' ∧
      ∀ r, depthAt m' r =
        depthAt mem r + (if col.reference_pos = r then col.pileups.length else 0) := by
  obtain ⟨hdepth, hsome⟩ := observe_column_spec fasta mem col
  obtain ⟨m', hf, hd, _⟩ :=
    foldlM_record_ok col.reference_pos col.pileups (observe_column fasta mem col) hsome
  exact ⟨m', hf, fun r => (hd r).trans (hdepth r)⟩

theorem process_bam_ok (fasta : String → Nat → Char) (cols : List PileupColumn) :
    ∀ mem : Memory, ∃ m', process_bam fasta mem cols = .ok m' ∧
      ∀ p, depthAt m' p = depthAt mem p +
        ((cols.filter fun c => c.reference_pos = p).map fun c => c.pileups.length).sum := by
  induction cols with
  | nil => exact fun mem => ⟨mem, rfl, by simp⟩
  | cons c cs ih =>
    intro mem
    obtain ⟨m1, h1, hd1⟩ := process_pileup_column_ok fasta mem c
    obtain ⟨m', h2, hd2⟩ := ih m1
    refine ⟨m', ?_, fun p => ?_⟩
    · rw [process_bam, List.foldlM_cons, h1]
      exact h2
    · rw [hd2 p, hd1 p, List.filter_cons]
      by_cases hc : c.reference_pos = p
      · simp only [hc, decide_True, if_true, List.map_cons, List.sum_cons]
        omega
      · simp only [hc, decide_False, Bool.false_eq_true, if_false]
        omega

/-- C6: ingesting any sequence of pileup columns into a fresh accumulator
succeeds, and at every coordinate the recorded total depth equals the sum of
the read counts of exactly the columns covering that coordinate (however
they are interleaved with columns for other coordinates); moreover a single
column ingestion never decreases the recorded depth at any coordinate. -/
theorem totalDepth_accumulation (fasta : String → Nat → Char)
    (cols : List PileupColumn) :
    (∃ m', process_bam fasta [] cols = .ok m' ∧
        ∀ p, depthAt m' p =
          ((cols.filter fun c => c.reference_pos = p).map fun c => c.pileups.length).sum) ∧
      ∀ (mem : Memory) (col : PileupColumn) (m'' : Memory),
        process_pileup_column fasta mem col = .ok m'' →
          ∀ p, depthAt mem p ≤ depthAt m'' p := by
  constructor
  · obtain ⟨m', h, hd⟩ := process_bam_ok fasta cols []
    refine ⟨m', h, fun p => ?_⟩
    have h0 : depthAt ([] : Memory) p = 0 := rfl
    rw [hd p, h0, Nat.zero_add]
  · intro mem col m'' h p
    obtain ⟨m0, h0, hd0⟩ := process_pileup_column_ok fasta mem col
    rw [h] at h0
    obtain rfl := Except.ok.inj h0
    rw [hd0 p]
    omega

def colC6a : PileupColumn :=
  { reference_name := "ref", reference_pos := 5,
    pileups := [{ is_del := false, is_refskip := false, base := 'G', quality := 30 }] }

def colC6b : PileupColumn :=
  { reference_name := "ref", reference_pos := 5,
    pileups :=
      [ { is_del := false, is_refskip := false, base := 'G', quality := 20 }
      , { is_del := true, is_refskip := false, base := 'G', quality := 0 } ] }

/-- Witness for C6: two columns at coordinate 5 (read counts 1 and 2,
ingested non-contiguously as separate calls) plus the monotonicity part
applied at a concrete single-column ingestion whose hypothesis is
discharged by evaluation. -/
theorem totalDepth_accumulation_witness :
    (∃ m', process_bam (fun _ _ => 'A') [] [colC6a, colC6b] = .ok m' ∧
        ∀ p, depthAt m' p =
          (([colC6a, colC6b].filter fun c => c.reference_pos = p).map
            fun c => c.pileups.length).sum) ∧
      process_pileup_column (fun _ _ => 'A') [] colC6a =
          .ok [(5, { reference := 'A', totalDepth := 1, baseQualities := [('G', [])] })] ∧
        ∀ p, depthAt ([] : Memory) p ≤
          depthAt [(5, { reference := 'A', totalDepth := 1, baseQualities := [('G', [])] })] p :=
  ⟨(totalDepth_accumulation (fun _ _ => 'A') [colC6a, colC6b]).1, rfl,
    (totalDepth_accumulation (fun _ _ => 'A') [colC6a, colC6b]).2 [] colC6a _ rfl⟩

namespace PhredMath

/-- Modelled from the spec: `to_phred_scale` of `variant_caller/utils.py`
(that file is absent from the sources); spec §4.1: returns
`round(-10 * log10(p))`, which evaluates to 0 at `p = 1`. -/
noncomputable def to_phred_scale (p : ℝ) : ℤ :=
  round (-10 * Real.logb 10 p)

/-- Modelled from the spec: `from_phred_scale` of `variant_caller/utils.py`
(that file is absent from the sources); spec §4.1: returns `10 ^ (-q/10)`. -/
noncomputable def from_phred_scale (q : ℤ) : ℝ :=
  (10 : ℝ) ^ (-(q : ℝ) / 10)

theorem from_to_phred_eq (p : ℝ) (hp : 0 < p) :
    from_phred_scale (to_phred_scale p) =
      p * (10 : ℝ) ^
        ((-10 * Real.logb 10 p - (round (-10 * Real.logb 10 p) : ℤ)) / 10) := by
  have h10 : (0:ℝ) < 10 := by norm_num
  have h10' : (10:ℝ) ≠ 1 := by norm_num
  have hexp : -(((round (-10 * Real.logb 10 p) : ℤ)) : ℝ) / 10 =
      Real.logb 10 p +
        (-10 * Real.logb 10 p - ((round (-10 * Real.logb 10 p) : ℤ) : ℝ)) / 10 := by
    ring
  rw [from_phred_scale, to_phred_scale, hexp, Real.rpow_add h10,
    Real.rpow_logb h10 h10' hp]

/-- C9: for every probability `p` in `(0,1]` the integer phred round trip
lands within a bounded rounding tolerance of `p`: multiplicatively between
`p * 10^(-1/20)` and `p * 10^(1/20)` (the half-unit rounding error of the
integer phred score), hence within `10^(1/20) - 1 ≈ 0.122` of `p`; the
round trip is not exact in general. -/
theorem phred_roundtrip_bounded (p : ℝ) (hp : 0 < p) (hp1 : p ≤ 1) :
    p * (10 : ℝ) ^ (-(1 : ℝ) / 20) ≤ from_phred_scale (to_phred_scale p) ∧
      from_phred_scale (to_phred_scale p) ≤ p * (10 : ℝ) ^ ((1 : ℝ) / 20) ∧
      |from_phred_scale (to_phred_scale p) - p| ≤ (10 : ℝ) ^ ((1 : ℝ) / 20) - 1 := by
  have h10 : (0:ℝ) < 10 := by norm_num
  have hb : (1:ℝ) ≤ 10 := by norm_num
  have hkey := from_to_phred_eq p hp
  have habs := abs_sub_round (-10 * Real.logb 10 p)
  have habs' := abs_le.mp habs
  have h1 : -(1:ℝ)/20 ≤ (-10 * Real.logb 10 p - ((round (-10 * Real.logb 10 p) : ℤ) : ℝ))/10 := by
    have := habs'.1
    push_cast at this ⊢
    linarith
  have h2 : (-10 * Real.logb 10 p - ((round (-10 * Real.logb 10 p) : ℤ) : ℝ))/10 ≤ (1:ℝ)/20 := by
    have := habs'.2
    push_cast at this ⊢
    linarith
  have hlow : p * (10 : ℝ) ^ (-(1 : ℝ) / 20) ≤ from_phred_scale (to_phred_scale p) := by
    rw [hkey]
    exact mul_le_mul_of_nonneg_left (Real.rpow_le_rpow_of_exponent_le hb h1) hp.le
  have hhigh : from_phred_scale (to_phred_scale p) ≤ p * (10 : ℝ) ^ ((1 : ℝ) / 20) := by
    rw [hkey]
    exact mul_le_mul_of_nonneg_left (Real.rpow_le_rpow_of_exponent_le hb h2) hp.le
  refine ⟨hlow, hhigh, ?_⟩
  have ha0 : (0:ℝ) < (10 : ℝ) ^ ((1 : ℝ) / 20) := Real.rpow_pos_of_pos h10 _
  have ha1 : (1:ℝ) ≤ (10 : ℝ) ^ ((1 : ℝ) / 20) := by
    have := Real.rpow_le_rpow_of_exponent_le hb (by norm_num : (0:ℝ) ≤ (1:ℝ)/20)
    rwa [Real.rpow_zero] at this
  have hneg : (10 : ℝ) ^ (-(1 : ℝ) / 20) = ((10 : ℝ) ^ ((1 : ℝ) / 20))⁻¹ := by
    rw [show (-(1:ℝ)/20) = -((1:ℝ)/20) by ring, Real.rpow_neg h10.le]
  have hinv : (10 : ℝ) ^ ((1 : ℝ) / 20) * ((10 : ℝ) ^ ((1 : ℝ) / 20))⁻¹ = 1 :=
    mul_inv_cancel₀ (ne_of_gt ha0)
  rw [hneg] at hlow
  rw [abs_le]
  constructor
  · nlinarith [sq_nonneg ((10 : ℝ) ^ ((1 : ℝ) / 20) - 1)]
  · nlinarith

/-- Witness for C9 at `p = 1`: the hypotheses `0 < 1` and `1 ≤ 1` hold and
the round-trip bound follows from the theorem applied there. -/
theorem phred_roundtrip_bounded_witness :
    (0:ℝ) < 1 ∧ (1:ℝ) ≤ 1 ∧
      ((1:ℝ) * (10 : ℝ) ^ (-(1 : ℝ) / 20) ≤ from_phred_scale (to_phred_scale 1) ∧
        from_phred_scale (to_phred_scale 1) ≤ (1:ℝ) * (10 : ℝ) ^ ((1 : ℝ) / 20) ∧
        |from_phred_scale (to_phred_scale 1) - 1| ≤ (10 : ℝ) ^ ((1 : ℝ) / 20) - 1) :=
  ⟨by norm_num, le_refl 1, phred_roundtrip_bounded 1 (by norm_num) (le_refl 1)⟩

end PhredMath

end VariantCaller
